import Mathlib

/-!
Verification development for the backtrader backtesting engine.

Shallow embedding of the core data model and operations of
src/backtrader/order.py, src/backtrader/cerebro.py, src/backtrader/strategy.py,
src/backtrader/lineiterator.py and src/backtrader/resamplerfilter.py.

Python floats are modelled as rationals.  Python falsy checks on numbers
(if x:) are modelled as a comparison with 0; falsy checks on optional values
are modelled with Option.  Methods that read self.data.datetime[0] receive the
current bar timestamp as an explicit argument.  Mutation is modelled by state
passing: each method returns the updated object (plus its Python return value
where there is one).
-/

namespace Backtrader

/-! ## Order data model (src/backtrader/order.py) -/

/-- Order status values, mirroring OrderBase:
Created, Submitted, Accepted, Partial, Completed, Canceled, Expired, Margin,
Rejected.  The Python name Partial is rendered PartFilled here. -/
inductive OrdStatus where
  | Created
  | Submitted
  | Accepted
  | PartFilled
  | Completed
  | Canceled
  | Expired
  | Margin
  | Rejected
deriving DecidableEq

/-- Order side, mirroring OrderBase.OrdTypes = [Buy, Sell]. -/
inductive OrdType where
  | Buy
  | Sell
deriving DecidableEq

/-- Execution types, mirroring OrderBase.ExecTypes. -/
inductive ExecType where
  | Market
  | Close
  | Limit
  | Stop
  | StopLimit
  | StopTrail
  | StopTrailLimit
  | Historical
deriving DecidableEq

/-- One execution bit, mirroring OrderExecutionBit.__init__: the stored
fields, with value and comm computed from the closed/opened parts. -/
structure OrderExecutionBit where
  dt : ℚ := 0
  size : ℚ := 0
  price : ℚ := 0
  closed : ℚ := 0
  opened : ℚ := 0
  closedvalue : ℚ := 0
  openedvalue : ℚ := 0
  closedcomm : ℚ := 0
  openedcomm : ℚ := 0
  value : ℚ := 0
  comm : ℚ := 0
  pnl : ℚ := 0
  psize : ℚ := 0
  pprice : ℚ := 0
deriving DecidableEq

/-- Argument record for Order.execute, bundling the positional arguments
dt, size, price, closed, closedvalue, closedcomm, opened, openedvalue,
openedcomm, margin, pnl, psize, pprice of the Python method. -/
structure Fill where
  dt : ℚ := 0
  size : ℚ
  price : ℚ := 0
  closed : ℚ := 0
  closedvalue : ℚ := 0
  closedcomm : ℚ := 0
  opened : ℚ := 0
  openedvalue : ℚ := 0
  openedcomm : ℚ := 0
  margin : ℚ := 0
  pnl : ℚ := 0
  psize : ℚ := 0
  pprice : ℚ := 0
deriving DecidableEq

/-- Builds an OrderExecutionBit from the execute arguments, mirroring
OrderExecutionBit.__init__ (value = closedvalue + openedvalue and
comm = closedcomm + openedcomm are computed there). -/
def OrderExecutionBit.ofFill (f : Fill) : OrderExecutionBit :=
  { dt := f.dt
    size := f.size
    price := f.price
    closed := f.closed
    opened := f.opened
    closedvalue := f.closedvalue
    openedvalue := f.openedvalue
    closedcomm := f.closedcomm
    openedcomm := f.openedcomm
    value := f.closedvalue + f.openedvalue
    comm := f.closedcomm + f.openedcomm
    pnl := f.pnl
    psize := f.psize
    pprice := f.pprice }

/-- OrderData, mirroring OrderData.__init__: the execution-bit deque with the
two pending indices p1, p2, and the accumulated fields. -/
structure OrderData where
  exbits : List OrderExecutionBit := []
  p1 : ℕ := 0
  p2 : ℕ := 0
  dt : ℚ := 0
  size : ℚ := 0
  remsize : ℚ := 0
  price : ℚ := 0
  pricelimit : ℚ := 0
  value : ℚ := 0
  comm : ℚ := 0
  pnl : ℚ := 0
  psize : ℚ := 0
  pprice : ℚ := 0
  margin : Option ℚ := none
deriving DecidableEq

/-- OrderData.addbit: stores an execution bit and recalculates the own values
from it (remsize decreases by the bit size, size accumulates, price becomes
the size-weighted average, value/comm/pnl accumulate, psize/pprice track the
last bit). -/
def OrderData.addbit (od : OrderData) (b : OrderExecutionBit) : OrderData :=
  let oldvalue := od.size * od.price
  let newvalue := b.size * b.price
  let nsize := od.size + b.size
  { od with
    exbits := od.exbits ++ [b]
    remsize := od.remsize - b.size
    dt := b.dt
    size := nsize
    price := (oldvalue + newvalue) / nsize
    value := od.value + b.value
    comm := od.comm + b.comm
    pnl := od.pnl + b.pnl
    psize := b.psize
    pprice := b.pprice }

/-- OrderData.iterpending: islice(self.exbits, self.p1, self.p2). -/
def OrderData.iterpending (od : OrderData) : List OrderExecutionBit :=
  (od.exbits.take od.p2).drop od.p1

/-- OrderData.markpending: rebuilds the indices marking which exbits are
pending in a clone: p1, p2 = p2, len(exbits). -/
def OrderData.markpending (od : OrderData) : OrderData :=
  { od with p1 := od.p2, p2 := od.exbits.length }

/-- The order object.  Only the parts the verified claims touch are kept:
status, side, execution type, validity, trailing parameters, the limit offset
computed in OrderBase.__init__, and the created/executed OrderData records. -/
structure Order where
  status : OrdStatus := .Created
  ordtype : OrdType := .Buy
  exectype : ExecType := .Market
  valid : Option ℚ := none
  trailamount : ℚ := 0
  trailpercent : ℚ := 0
  limitoffset : ℚ := 0
  created : OrderData := {}
  executed : OrderData := {}
deriving DecidableEq

/-- Order.isbuy. -/
def Order.isbuy (o : Order) : Bool := o.ordtype = OrdType.Buy

/-- Order.alive: status in [Created, Submitted, Partial, Accepted]. -/
def Order.alive (o : Order) : Bool :=
  o.status = OrdStatus.Created ∨ o.status = OrdStatus.Submitted ∨
  o.status = OrdStatus.PartFilled ∨ o.status = OrdStatus.Accepted

/-- OrderBase.submit: status = Submitted (broker and plen bookkeeping is not
modelled). -/
def Order.submit (o : Order) : Order :=
  { o with status := .Submitted }

/-- OrderBase.accept: status = Accepted. -/
def Order.accept (o : Order) : Order :=
  { o with status := .Accepted }

/-- OrderBase.cancel: status = Canceled and executed.dt = data.datetime[0],
with the current bar timestamp passed as dt. -/
def Order.cancel (o : Order) (dt : ℚ) : Order :=
  { o with status := .Canceled, executed := { o.executed with dt := dt } }

/-- OrderBase.margin: status = Margin and executed.dt = data.datetime[0]. -/
def Order.margin (o : Order) (dt : ℚ) : Order :=
  { o with status := .Margin, executed := { o.executed with dt := dt } }

/-- OrderBase.reject: returns False when already Rejected, otherwise sets
status = Rejected, executed.dt = data.datetime[0] and returns True. -/
def Order.reject (o : Order) (dt : ℚ) : Order × Bool :=
  if o.status = OrdStatus.Rejected then (o, false)
  else ({ o with status := .Rejected, executed := { o.executed with dt := dt } }, true)

/-- Order.execute (together with OrderBase.execute which it wraps): a zero
size returns immediately; otherwise the bit is added, executed.margin is set,
and the status becomes Partial when executed.remsize is non-zero and
Completed when it is zero. -/
def Order.execute (o : Order) (f : Fill) : Order :=
  if f.size = 0 then o
  else
    let ex := o.executed.addbit (OrderExecutionBit.ofFill f)
    let ex := { ex with margin := some f.margin }
    { o with
      executed := ex
      status := if ex.remsize ≠ 0 then .PartFilled else .Completed }

/-- Order.expire: a Market order returns False; otherwise, when valid is
truthy (set and non-zero) and data.datetime[0] is strictly greater than it,
the status becomes Expired, executed.dt is stamped and True is returned;
otherwise False and no change. -/
def Order.expire (o : Order) (dt : ℚ) : Order × Bool :=
  if o.exectype = ExecType.Market then (o, false)
  else
    match o.valid with
    | none => (o, false)
    | some v =>
      if v ≠ 0 ∧ v < dt then
        ({ o with status := .Expired, executed := { o.executed with dt := dt } }, true)
      else (o, false)

/-- The trailing amount computed at the top of Order.trailadjust: the
trailamount if given, else price * trailpercent if given, else 0. -/
def Order.trailamt (o : Order) (price : ℚ) : ℚ :=
  if o.trailamount ≠ 0 then o.trailamount
  else if o.trailpercent ≠ 0 then price * o.trailpercent
  else 0

/-- Order.trailadjust: stop sell is below (-), stop buy is above; the stored
created.price moves only if the candidate price is strictly better, and for
StopTrailLimit the created.pricelimit follows at the stored limit offset. -/
def Order.trailadjust (o : Order) (price : ℚ) : Order :=
  let pamount := o.trailamt price
  if o.ordtype = OrdType.Buy then
    let p := price + pamount
    if p < o.created.price then
      { o with created :=
        { o.created with
          price := p
          pricelimit :=
            if o.exectype = ExecType.StopTrailLimit then p - o.limitoffset
            else o.created.pricelimit } }
    else o
  else
    let p := price - pamount
    if o.created.price < p then
      { o with created :=
        { o.created with
          price := p
          pricelimit :=
            if o.exectype = ExecType.StopTrailLimit then p - o.limitoffset
            else o.created.pricelimit } }
    else o

/-- Folds a sequence of broker fills through Order.execute. -/
def Order.applyFills (o : Order) (fills : List Fill) : Order :=
  fills.foldl Order.execute o

/-- Sum of the sizes of a list of execution bits. -/
def sumSizes (l : List OrderExecutionBit) : ℚ :=
  (l.map (fun b => b.size)).sum

/-- e lies between 0 and c (inclusive), whatever the sign of c. -/
def SizeBetween (e c : ℚ) : Prop :=
  (0 ≤ c → 0 ≤ e ∧ e ≤ c) ∧ (c ≤ 0 → c ≤ e ∧ e ≤ 0)

/-- A sequence of fills is valid for a remaining size rem when each fill is
non-zero, has the sign of the remaining size and does not exceed it in
magnitude; these are the fills a broker can produce for a pending order. -/
def validFills (rem : ℚ) : List Fill → Prop
  | [] => True
  | f :: fs => f.size ≠ 0 ∧ SizeBetween f.size rem ∧ validFills (rem - f.size) fs

/-- A freshly created pending order of the given signed size, mirroring the
relevant outcome of OrderBase.__init__: executed starts empty with
remsize = size, created.size = size, status = Created. -/
def mkPendingOrder (ordtype : OrdType) (exectype : ExecType) (size : ℚ) : Order :=
  { status := .Created
    ordtype := ordtype
    exectype := exectype
    created := { size := size, remsize := 0 }
    executed := { remsize := size } }

/-- A concrete order driven to Completed status by a full fill. -/
def completedOrderExample : Order :=
  (mkPendingOrder .Buy .Market 10).execute { dt := 1, size := 10, price := 100 }

/-! ## Pending-notification bookkeeping (OrderData.markpending, clone) -/

/-- Events interleaved on an order: a broker fill recording an execution bit
(OrderData.addbit via Order.execute) or a clone for notification
(OrderBase.clone calls OrderData.clone, which is markpending followed by a
shallow copy; the pending bits of the produced clone are its iterpending). -/
inductive ONotifyOp where
  | fill (b : OrderExecutionBit)
  | clone
deriving DecidableEq

/-- Runs a sequence of fill/clone events over an OrderData, returning the
final state and, for each clone in order, the pending list of that clone. -/
def OrderData.runOps (od : OrderData) :
    List ONotifyOp → OrderData × List (List OrderExecutionBit)
  | [] => (od, [])
  | .fill b :: ops => (od.addbit b).runOps ops
  | .clone :: ops =>
    let m := od.markpending
    let r := m.runOps ops
    (r.1, m.iterpending :: r.2)

/-- All execution bits recorded by a sequence of events, in order. -/
def opsBits (ops : List ONotifyOp) : List OrderExecutionBit :=
  ops.filterMap (fun op => match op with | .fill b => some b | .clone => none)

/-! ## Engine event loop (Cerebro._runnext) and strategy clock

The data-feed buffer itself (feed.py) is not part of the sources.
Modelled from the spec: a feed is a time-ordered source of bars exposing
next(), rewind and datetime[0] (sections 4.3 and 6 of the spec); it is
rendered as a zipper of already-delivered timestamps (most recent first) and
not-yet-delivered timestamps.  next() moves the first future timestamp to the
past, rewind moves the last delivered timestamp back, datetime[0] is the most
recently delivered timestamp. -/
structure Feed where
  past : List ℚ
  future : List ℚ
deriving DecidableEq

/-- Modelled from the spec: datetime[0], the timestamp of the most recently
delivered bar of the feed (none when nothing was delivered yet). -/
def Feed.lastdt (f : Feed) : Option ℚ :=
  f.past.head?

/-- Modelled from the spec: feed.next(), delivering the next pending bar when
there is one (the True/False return of data.next in the engine loop). -/
def fnext (f : Feed) : Feed × Bool :=
  match f.future with
  | [] => (f, false)
  | t :: rest => (⟨t :: f.past, rest⟩, true)

/-- Modelled from the spec: feed rewind, un-delivering the current bar so it
is re-delivered by the next call to next(). -/
def Feed.rewind (f : Feed) : Feed :=
  match f.past with
  | [] => f
  | t :: ps => ⟨ps, t :: f.future⟩

/-- Minimum of a list of rationals, none when empty. -/
def listMin : List ℚ → Option ℚ
  | [] => none
  | x :: xs =>
    match listMin xs with
    | none => some x
    | some m => some (min x m)

/-- Maximum of a list of rationals, none when empty. -/
def listMax : List ℚ → Option ℚ
  | [] => none
  | x :: xs =>
    match listMax xs with
    | none => some x
    | some m => some (max x m)

/-- The per-feed treatment after dt0 is known in Cerebro._runnext: a feed
that delivered a timestamp strictly greater than dt0 is rewound (it cannot
deliver yet); every other feed is left as is. -/
def feedPost (dt0 : ℚ) (p : Feed × Bool) : Feed :=
  if p.2 then
    match p.1.lastdt with
    | some t => if dt0 < t then p.1.rewind else p.1
    | none => p.1
  else p.1

/-- One iteration of the Cerebro._runnext outer loop over plain (non-live,
non-resampled) feeds: every feed attempts next(); when none delivered, the
loop is over (none); otherwise dt0 is the minimum timestamp over the feeds
that delivered a bar, and feeds whose new timestamp exceeds dt0 are rewound. -/
def runnextStep (fs : List Feed) : Option (List Feed × ℚ) :=
  match listMin ((fs.map fnext).filterMap
      (fun p => if p.2 then p.1.lastdt else none)) with
  | none => none
  | some dt0 => some ((fs.map fnext).map (feedPost dt0), dt0)

/-- Strategy._clk_update datetime assignment:
max(data.datetime[0] for data in self.datas if len(data)). -/
def stratDT (fs : List Feed) : Option ℚ :=
  listMax (fs.filterMap Feed.lastdt)

/-- Runs the _runnext loop for at most fuel iterations, recording for each
iteration the pair (dt0, strategy datetime written by _clk_update). -/
def runnextRun (fuel : ℕ) (fs : List Feed) : List (ℚ × Option ℚ) :=
  match fuel with
  | 0 => []
  | n + 1 =>
    match runnextStep fs with
    | none => []
    | some pr => (pr.2, stratDT pr.1) :: runnextRun n pr.1

/-- Loop invariant relative to the last emitted dt0 (bottom before the first
iteration): each feed is internally ordered (delivered timestamps descending
from the head, pending ascending, everything delivered at most everything
pending), the last delivered timestamp is at most d, and the next pending
timestamp is at least d. -/
def FeedInv (d : WithBot ℚ) (f : Feed) : Prop :=
  List.Sorted (fun a b => b ≤ a) f.past ∧
  List.Sorted (· ≤ ·) f.future ∧
  (∀ x ∈ f.past, ∀ y ∈ f.future, x ≤ y) ∧
  (∀ t, f.past.head? = some t → (t : WithBot ℚ) ≤ d) ∧
  (∀ t, f.future.head? = some t → d ≤ (t : WithBot ℚ))

/-! ## Resampler late-data handling (resamplerfilter.py) -/

/-- An OHLCV bar with timestamp. -/
structure PriceBar where
  dt : ℚ
  openp : ℚ
  high : ℚ
  low : ℚ
  close : ℚ
  volume : ℚ
  openinterest : ℚ
deriving DecidableEq

/-- Modelled from the spec: the aggregate-bar update _Bar.bupdate of
dataseries.py (not among the sources); per section 4.5 the open aggregate bar
keeps the first open, the max across highs, the min across lows, the last
close and the summed volume/open interest, and its timestamp follows the last
folded input.  none is a closed (not open) aggregate. -/
def barUpdate (agg : Option PriceBar) (b : PriceBar) : PriceBar :=
  match agg with
  | none => b
  | some a =>
    { dt := b.dt
      openp := a.openp
      high := max a.high b.high
      low := min a.low b.low
      close := b.close
      volume := a.volume + b.volume
      openinterest := a.openinterest + b.openinterest }

/-- _BaseResampler._latedata: only for sub-day timeframes, and true when the
feed has delivered more than one bar and the new timestamp at [0] is less
than or equal to the timestamp already delivered at [-1]. -/
def latedata (subdays : Bool) (flen : ℕ) (dt0 dtm1 : ℚ) : Bool :=
  if !subdays then false
  else decide (1 < flen) && decide (dt0 ≤ dtm1)

/-- Outcome of the late-data branch of Resampler.__call__: the new aggregate,
whether the input bar remained in the stream (backwards removes it), and
whether an aggregate bar was emitted to the stack. -/
structure LateResult where
  agg : Option PriceBar
  inputDelivered : Bool
  emitted : Bool
deriving DecidableEq

/-- The late-data branch of Resampler.__call__ (lines 506-515): when takelate
is false the input bar is removed via backwards and nothing else happens;
when takelate is true the input bar is folded into the aggregate via bupdate,
the aggregate timestamp is pushed beyond the reference to
data.datetime[-1] + 0.000001, and the input bar is removed via backwards.
Both branches return True (ask for a new bar) and emit nothing. -/
def resamplerOnLate (takelate : Bool) (agg : Option PriceBar) (nb : PriceBar)
    (dtm1 : ℚ) : LateResult :=
  if !takelate then
    { agg := agg, inputDelivered := false, emitted := false }
  else
    { agg := some { barUpdate agg nb with dt := dtm1 + 1 / 1000000 }
      inputDelivered := false
      emitted := false }

/-- The guarded entry of Resampler.__call__ for a fresh (not fromcheck) input
bar: when _latedata holds the late branch runs and the call returns there;
otherwise (none) the normal aggregation path of the body continues. -/
def resamplerCallLatePath (takelate subdays : Bool) (flen : ℕ)
    (agg : Option PriceBar) (nb : PriceBar) (dtm1 : ℚ) : Option LateResult :=
  if latedata subdays flen nb.dt dtm1 then
    some (resamplerOnLate takelate agg nb dtm1)
  else none

/-! ## LineIterator event-mode dispatch (lineiterator.py) -/

/-- The three user callbacks LineIterator._next can dispatch to. -/
inductive LICall where
  | prenext
  | nextstart
  | nextc
deriving DecidableEq

/-- The dispatch at the end of LineIterator._next for a non-strategy
iterator: next when clock_len > min_period, nextstart when equal, prenext
when clock_len is non-zero (and hence smaller), nothing otherwise. -/
def liDispatch (clockLen minperiod : ℕ) : Option LICall :=
  if minperiod < clockLen then some .nextc
  else if clockLen = minperiod then some .nextstart
  else if clockLen ≠ 0 then some .prenext
  else none

/-- Observable events of one LineIterator._next call: the recursive _next of
the k child indicators (in registration order), then the own dispatch. -/
inductive LIEvent where
  | childNext (idx : ℕ)
  | selfCall (c : LICall)
deriving DecidableEq

/-- The event list of one LineIterator._next call on a clock of length
clockLen: child indicators first, then exactly the dispatched callback. -/
def liNextEvents (k minperiod clockLen : ℕ) : List LIEvent :=
  ((List.range k).map LIEvent.childNext) ++
    ((liDispatch clockLen minperiod).toList.map LIEvent.selfCall)

/-- The event lists of a run of T clock ticks in event mode: at tick number
t (1-based) the clock has length t. -/
def liRunTrace (k minperiod T : ℕ) : List (List LIEvent) :=
  (List.range T).map (fun t => liNextEvents k minperiod (t + 1))

/-! ## Strategy instantiation in Cerebro.run_strategies -/

/-- Result of instantiating one strategy: either a constructed strategy or
the StrategySkipError signal (an explicit variant, as section 9 of the spec
prescribes for the exception used as loop control). -/
inductive StratInit (α : Type) where
  | ok (s : α)
  | skip
deriving DecidableEq

/-- The strategy-instantiation loop of Cerebro.run_strategies: each
constructor outcome is processed in order; ok appends the strategy to
runstrats, skip (StrategySkipError) continues without adding it. -/
def addStrategies {α : Type} : List (StratInit α) → List α
  | [] => []
  | .ok s :: rest => s :: addStrategies rest
  | .skip :: rest => addStrategies rest

/-! ## Strategy.buy / Strategy.sell size resolution (strategy.py) -/

/-- The resolved order size: the explicit size argument when given, else the
sizer result self.getsizing(data, isbuy). -/
def resolvedSize (size : Option ℚ) (sizing : ℚ) : ℚ :=
  size.getD sizing

/-- Strategy.buy reduced to its size logic: with the sizer result for
isbuy=True, a truthy resolved size submits a broker buy carrying abs(size)
(rendered as some) and a zero resolved size returns None. -/
def Strategy.buy (size : Option ℚ) (sizingBuy : ℚ) : Option ℚ :=
  let sz := resolvedSize size sizingBuy
  if sz ≠ 0 then some |sz| else none

/-- Strategy.sell reduced to its size logic: as Strategy.buy with the sizer
result for isbuy=False. -/
def Strategy.sell (size : Option ℚ) (sizingSell : ℚ) : Option ℚ :=
  let sz := resolvedSize size sizingSell
  if sz ≠ 0 then some |sz| else none

/-! ## Helper lemmas -/

theorem addStrategies_append {α : Type} (l1 l2 : List (StratInit α)) :
    addStrategies (l1 ++ l2) = addStrategies l1 ++ addStrategies l2 := by
  induction l1 with
  | nil => simp [addStrategies]
  | cons h t ih => cases h <;> simp [addStrategies, ih]

theorem mem_addStrategies {α : Type} (s : α) (l : List (StratInit α)) :
    s ∈ addStrategies l ↔ StratInit.ok s ∈ l := by
  induction l with
  | nil => simp [addStrategies]
  | cons h t ih => cases h <;> simp [addStrategies, ih]

theorem trailadjust_ordtype (o : Order) (p : ℚ) :
    (o.trailadjust p).ordtype = o.ordtype := by
  simp only [Order.trailadjust]
  split_ifs <;> rfl

theorem trailadjust_buy_le (o : Order) (p : ℚ) (h : o.ordtype = OrdType.Buy) :
    (o.trailadjust p).created.price ≤ o.created.price := by
  simp only [Order.trailadjust, h, if_true]
  split_ifs with h1 h2
  · exact le_of_lt h1
  · exact le_of_lt h1
  · exact le_refl _

theorem trailadjust_sell_ge (o : Order) (p : ℚ) (h : o.ordtype = OrdType.Sell) :
    o.created.price ≤ (o.trailadjust p).created.price := by
  simp only [Order.trailadjust, h, if_true]
  split_ifs <;> simp_all <;> linarith

theorem trailadjust_foldl_buy_le (o : Order) (ps : List ℚ)
    (h : o.ordtype = OrdType.Buy) :
    (List.foldl Order.trailadjust o ps).created.price ≤ o.created.price := by
  induction ps generalizing o with
  | nil => exact le_refl _
  | cons q qs ih =>
    have h1 := trailadjust_buy_le o q h
    have h2 : (o.trailadjust q).ordtype = OrdType.Buy := by
      rw [trailadjust_ordtype]; exact h
    calc (List.foldl Order.trailadjust (o.trailadjust q) qs).created.price
        ≤ (o.trailadjust q).created.price := ih _ h2
      _ ≤ o.created.price := h1

theorem trailadjust_foldl_sell_ge (o : Order) (ps : List ℚ)
    (h : o.ordtype = OrdType.Sell) :
    o.created.price ≤ (List.foldl Order.trailadjust o ps).created.price := by
  induction ps generalizing o with
  | nil => exact le_refl _
  | cons q qs ih =>
    have h1 := trailadjust_sell_ge o q h
    have h2 : (o.trailadjust q).ordtype = OrdType.Sell := by
      rw [trailadjust_ordtype]; exact h
    calc o.created.price ≤ (o.trailadjust q).created.price := h1
      _ ≤ (List.foldl Order.trailadjust (o.trailadjust q) qs).created.price :=
        ih _ h2

theorem liNextEvents_count (k mp clk : ℕ) (h : clk ≠ 0) :
    (liNextEvents k mp clk).count (LIEvent.selfCall LICall.nextstart) =
      if clk = mp then 1 else 0 := by
  unfold liNextEvents
  rw [List.count_append]
  have hz : ((List.range k).map LIEvent.childNext).count
      (LIEvent.selfCall LICall.nextstart) = 0 := by
    rw [List.count_eq_zero]
    simp
  rw [hz, Nat.zero_add]
  unfold liDispatch
  rcases Nat.lt_trichotomy mp clk with h1 | h1 | h1
  · rw [if_pos h1, if_neg (by omega : ¬ clk = mp)]
    decide
  · rw [if_neg (by omega : ¬ mp < clk), if_pos h1.symm,
      if_pos (h1.symm : clk = mp)]
    decide
  · rw [if_neg (by omega : ¬ mp < clk), if_neg (by omega : ¬ clk = mp),
      if_pos h, if_neg (by omega : ¬ clk = mp)]
    decide

theorem liRunTrace_count (k mp T : ℕ) :
    (liRunTrace k mp T).flatten.count (LIEvent.selfCall LICall.nextstart) =
      if 1 ≤ mp ∧ mp ≤ T then 1 else 0 := by
  induction T with
  | zero =>
    rw [if_neg (by omega : ¬ (1 ≤ mp ∧ mp ≤ 0))]
    simp [liRunTrace]
  | succ n ih =>
    have hstep : liRunTrace k mp (n + 1) =
        liRunTrace k mp n ++ [liNextEvents k mp (n + 1)] := by
      unfold liRunTrace
      rw [List.range_succ, List.map_append]
      rfl
    have hflat : ([liNextEvents k mp (n + 1)] : List (List LIEvent)).flatten =
        liNextEvents k mp (n + 1) := by
      simp
    rw [hstep, List.flatten_append, List.count_append, ih, hflat,
      liNextEvents_count k mp (n + 1) (Nat.succ_ne_zero n)]
    split_ifs <;> omega

/-! ## Claim theorems -/

/-- Claim C3, counterexample: the claim that a terminal order is immutable
fails on the code: cancel invoked on a Completed order changes its status to
Canceled. -/
theorem C3_terminal_mutable_counterexample :
    completedOrderExample.status = OrdStatus.Completed ∧
    (completedOrderExample.cancel 2).status = OrdStatus.Canceled ∧
    (completedOrderExample.cancel 2).status ≠ OrdStatus.Completed := by
  refine ⟨?_, rfl, ?_⟩
  · norm_num [completedOrderExample, mkPendingOrder, Order.execute,
      OrderData.addbit, OrderExecutionBit.ofFill]
  · rw [show (completedOrderExample.cancel 2).status = OrdStatus.Canceled
      from rfl]
    intro hc
    exact OrdStatus.noConfusion hc

/-- Claim C3, amended: the state-changing operations of the order object do
not guard on the current status.  cancel always sets Canceled, margin always
sets Margin, submit always sets Submitted, accept always sets Accepted,
whatever the current status, terminal or not; the only guard is reject,
which leaves an already-Rejected order unchanged and returns False, and
otherwise sets Rejected and returns True.  Terminal-status immutability is
not enforced by the order object. -/
theorem C3_transitions_unguarded (o : Order) (dt : ℚ) :
    (o.cancel dt).status = OrdStatus.Canceled ∧
    (o.margin dt).status = OrdStatus.Margin ∧
    o.submit.status = OrdStatus.Submitted ∧
    o.accept.status = OrdStatus.Accepted ∧
    (o.status = OrdStatus.Rejected → o.reject dt = (o, false)) ∧
    (o.status ≠ OrdStatus.Rejected →
      (o.reject dt).1.status = OrdStatus.Rejected ∧ (o.reject dt).2 = true) := by
  refine ⟨rfl, rfl, rfl, rfl, ?_, ?_⟩ <;> intro h <;> simp [Order.reject, h]

/-- Witness for C3_transitions_unguarded at a concrete Completed order. -/
theorem C3_transitions_unguarded_witness :
    (completedOrderExample.cancel 2).status = OrdStatus.Canceled ∧
    (completedOrderExample.margin 2).status = OrdStatus.Margin ∧
    completedOrderExample.submit.status = OrdStatus.Submitted ∧
    completedOrderExample.accept.status = OrdStatus.Accepted ∧
    (completedOrderExample.status = OrdStatus.Rejected →
      completedOrderExample.reject 2 = (completedOrderExample, false)) ∧
    (completedOrderExample.status ≠ OrdStatus.Rejected →
      (completedOrderExample.reject 2).1.status = OrdStatus.Rejected ∧
      (completedOrderExample.reject 2).2 = true) :=
  C3_transitions_unguarded completedOrderExample 2

/-- Claim C4: Order.expire returns True and moves the order to Expired
exactly when the order has a validity set and the current bar timestamp is
strictly greater than it; an order with valid = None never expires and a
Market order never expires; when it returns False the order is unchanged.
The hypothesis restricts valid to a realistic timestamp (positive day
number) or None, matching the truthiness test of the source. -/
theorem C4_expire_exactly_when_valid_exceeded (o : Order) (dt : ℚ)
    (hv : o.valid = none ∨ ∃ v, o.valid = some v ∧ 0 < v) :
    ((o.expire dt).2 = true ↔
      o.exectype ≠ ExecType.Market ∧ ∃ v, o.valid = some v ∧ v < dt) ∧
    ((o.expire dt).2 = true → (o.expire dt).1.status = OrdStatus.Expired) ∧
    ((o.expire dt).2 = false → (o.expire dt).1 = o) := by
  rcases hv with h | ⟨v, hv, hvpos⟩
  · by_cases hm : o.exectype = ExecType.Market <;>
      simp [Order.expire, h, hm]
  · have hvne : v ≠ 0 := ne_of_gt hvpos
    by_cases hm : o.exectype = ExecType.Market
    · simp [Order.expire, hm]
    · by_cases hlt : v < dt <;>
        simp [Order.expire, hm, hv, hvne, hlt]

/-- Witness for C4 at a Limit order with valid = 10 and bar time 11. -/
theorem C4_expire_witness :
    ((mkPendingOrder OrdType.Buy ExecType.Limit 5).valid = none ∨
      ∃ v, ({ mkPendingOrder OrdType.Buy ExecType.Limit 5 with
        valid := some 10 } : Order).valid = some v ∧ 0 < v) ∧
    ((({ mkPendingOrder OrdType.Buy ExecType.Limit 5 with
        valid := some 10 } : Order).expire 11).2 = true ↔
      ({ mkPendingOrder OrdType.Buy ExecType.Limit 5 with
        valid := some 10 } : Order).exectype ≠ ExecType.Market ∧
      ∃ v, ({ mkPendingOrder OrdType.Buy ExecType.Limit 5 with
        valid := some 10 } : Order).valid = some v ∧ v < 11) := by
  refine ⟨Or.inr ⟨10, rfl, by norm_num⟩, ?_⟩
  exact (C4_expire_exactly_when_valid_exceeded
    ({ mkPendingOrder OrdType.Buy ExecType.Limit 5 with valid := some 10 })
    11 (Or.inr ⟨10, rfl, by norm_num⟩)).1

/-- Claim C5: when an input bar is late (timestamp at most the one already
delivered, sub-day timeframe), Resampler.__call__ takes the late branch; with
takelate the bar is folded into the open aggregate via bupdate with the
aggregate timestamp nudged one minimal unit past the reference timestamp
(hence strictly beyond it), and without takelate the bar is discarded leaving
the aggregate untouched; in both cases the input bar is removed from the
stream and no aggregate bar is emitted. -/
theorem C5_resampler_latedata (takelate subdays : Bool) (flen : ℕ)
    (agg : Option PriceBar) (nb : PriceBar) (dtm1 : ℚ)
    (hlate : latedata subdays flen nb.dt dtm1 = true) :
    resamplerCallLatePath takelate subdays flen agg nb dtm1 =
      some (resamplerOnLate takelate agg nb dtm1) ∧
    (takelate = true →
      (resamplerOnLate takelate agg nb dtm1).agg =
        some { barUpdate agg nb with dt := dtm1 + 1 / 1000000 } ∧
      (∀ b, (resamplerOnLate takelate agg nb dtm1).agg = some b →
        dtm1 < b.dt) ∧
      (resamplerOnLate takelate agg nb dtm1).inputDelivered = false ∧
      (resamplerOnLate takelate agg nb dtm1).emitted = false) ∧
    (takelate = false →
      resamplerOnLate takelate agg nb dtm1 =
        { agg := agg, inputDelivered := false, emitted := false }) := by
  refine ⟨by simp [resamplerCallLatePath, hlate], ?_, ?_⟩ <;> intro ht
  · subst ht
    refine ⟨rfl, ?_, rfl, rfl⟩
    intro b hb
    simp only [resamplerOnLate, Bool.not_true, Bool.false_eq_true, if_false,
      Option.some.injEq] at hb
    rw [← hb]
    norm_num
  · subst ht
    rfl

/-- Witness for C5 at a concrete late bar (timestamp equal to the last
delivered one, sub-day resampling, two bars delivered). -/
theorem C5_resampler_latedata_witness :
    latedata true 2 (5 : ℚ) (5 : ℚ) = true ∧
    resamplerCallLatePath true true 2 none
        { dt := 5, openp := 1, high := 2, low := 1, close := 2, volume := 3,
          openinterest := 0 } 5 =
      some (resamplerOnLate true none
        { dt := 5, openp := 1, high := 2, low := 1, close := 2, volume := 3,
          openinterest := 0 } 5) := by
  refine ⟨by decide, ?_⟩
  exact (C5_resampler_latedata true true 2 none
    { dt := 5, openp := 1, high := 2, low := 1, close := 2, volume := 3,
      openinterest := 0 } 5 (by decide)).1

/-- Claim C6: in event mode a non-strategy LineIterator first runs _next on
all its child indicators, then dispatches exactly one callback: next when
the clock length exceeds the minimum period, nextstart when they are equal,
prenext when the clock is shorter; over a run of T ticks with
1 <= min_period <= T, nextstart is dispatched exactly once. -/
theorem C6_lineiterator_dispatch (k mp clk T : ℕ)
    (hclk : 1 ≤ clk) (hmp : 1 ≤ mp) (hT : mp ≤ T) :
    (∃ c, liNextEvents k mp clk =
        ((List.range k).map LIEvent.childNext) ++ [LIEvent.selfCall c] ∧
      (c = LICall.nextc ↔ mp < clk) ∧
      (c = LICall.nextstart ↔ clk = mp) ∧
      (c = LICall.prenext ↔ clk < mp)) ∧
    (liRunTrace k mp T).flatten.count (LIEvent.selfCall LICall.nextstart) = 1 := by
  constructor
  · rcases Nat.lt_trichotomy mp clk with h1 | h1 | h1
    · refine ⟨LICall.nextc, ?_, ?_, ?_, ?_⟩
      · simp [liNextEvents, liDispatch, h1]
      · simp [h1]
      · have : clk ≠ mp := by omega
        simp [this]
      · have : ¬ clk < mp := by omega
        simp [this]
    · refine ⟨LICall.nextstart, ?_, ?_, ?_, ?_⟩
      · simp [liNextEvents, liDispatch, h1, lt_irrefl]
      · have : ¬ mp < clk := by omega
        simp [this]
      · simp [h1]
      · have : ¬ clk < mp := by omega
        simp [this]
    · refine ⟨LICall.prenext, ?_, ?_, ?_, ?_⟩
      · have h2 : ¬ mp < clk := by omega
        have h3 : clk ≠ mp := by omega
        have h4 : clk ≠ 0 := by omega
        simp [liNextEvents, liDispatch, h2, h3, h4]
      · have : ¬ mp < clk := by omega
        simp [this]
      · have : clk ≠ mp := by omega
        simp [this]
      · simp [h1]
  · rw [liRunTrace_count]
    exact if_pos ⟨hmp, hT⟩

/-- Witness for C6 with two children, min period 3, clock length 3, five
ticks. -/
theorem C6_lineiterator_dispatch_witness :
    (1 ≤ 3 ∧ 1 ≤ 3 ∧ 3 ≤ 5) ∧
    (liRunTrace 2 3 5).flatten.count (LIEvent.selfCall LICall.nextstart) = 1 :=
  ⟨by omega, (C6_lineiterator_dispatch 2 3 3 5 (by omega) (by omega)
    (by omega)).2⟩

/-- Claim C8: a StrategySkipError raised by a strategy constructor during
run_strategies makes the engine drop exactly that strategy: it is not added
to the running set and every other constructed strategy, before or after it,
still runs in order. -/
theorem C8_strategy_skip {α : Type} (pre post : List (StratInit α)) :
    addStrategies (pre ++ StratInit.skip :: post) =
      addStrategies pre ++ addStrategies post ∧
    (∀ s, s ∈ addStrategies (pre ++ StratInit.skip :: post) ↔
      StratInit.ok s ∈ pre ∨ StratInit.ok s ∈ post) := by
  constructor
  · rw [addStrategies_append]
    rfl
  · intro s
    rw [mem_addStrategies]
    simp

/-- Claim C10: Strategy.buy and Strategy.sell submit nothing and return None
exactly when the resolved size (explicit argument, else sizer result) is
zero; a submitted order always carries the absolute value of the non-zero
resolved size. -/
theorem C10_order_size_gate (size : Option ℚ) (szb szs : ℚ) :
    (Strategy.buy size szb = none ↔ resolvedSize size szb = 0) ∧
    (∀ s, Strategy.buy size szb = some s →
      s = |resolvedSize size szb| ∧ resolvedSize size szb ≠ 0) ∧
    (Strategy.sell size szs = none ↔ resolvedSize size szs = 0) ∧
    (∀ s, Strategy.sell size szs = some s →
      s = |resolvedSize size szs| ∧ resolvedSize size szs ≠ 0) := by
  refine ⟨?_, ?_, ?_, ?_⟩
  · by_cases h : resolvedSize size szb = 0 <;> simp [Strategy.buy, h]
  · intro s hs
    by_cases h : resolvedSize size szb = 0 <;>
      simp [Strategy.buy, h] at hs
    exact ⟨hs.symm, h⟩
  · by_cases h : resolvedSize size szs = 0 <;> simp [Strategy.sell, h]
  · intro s hs
    by_cases h : resolvedSize size szs = 0 <;>
      simp [Strategy.sell, h] at hs
    exact ⟨hs.symm, h⟩

/-- Witness for C10 at an explicit size of -3 (sell-style negative size from
a sizer is submitted as its absolute value). -/
theorem C10_order_size_gate_witness :
    (Strategy.buy (some (-3)) 7 = none ↔ resolvedSize (some (-3)) 7 = 0) ∧
    (∀ s, Strategy.buy (some (-3)) 7 = some s →
      s = |resolvedSize (some (-3)) 7| ∧ resolvedSize (some (-3)) 7 ≠ 0) ∧
    (Strategy.sell (some (-3)) 2 = none ↔ resolvedSize (some (-3)) 2 = 0) ∧
    (∀ s, Strategy.sell (some (-3)) 2 = some s →
      s = |resolvedSize (some (-3)) 2| ∧ resolvedSize (some (-3)) 2 ≠ 0) :=
  C10_order_size_gate (some (-3)) 7 2

/-- Claim C7: trailadjust only moves the stop price favorably: for a buy
order the stored created.price never increases (also across any sequence of
calls), for a sell order it never decreases; when it moves, it is set to the
observed price plus (buy) or minus (sell) the trailing amount, which is
trailamount when given and price * trailpercent otherwise. -/
theorem C7_trailadjust_favorable (o : Order) (p : ℚ) :
    (o.ordtype = OrdType.Buy →
      (o.trailadjust p).created.price ≤ o.created.price ∧
      ((o.trailadjust p).created.price = o.created.price ∨
        (o.trailadjust p).created.price = p + o.trailamt p) ∧
      (∀ ps : List ℚ,
        (List.foldl Order.trailadjust o ps).created.price ≤ o.created.price)) ∧
    (o.ordtype = OrdType.Sell →
      o.created.price ≤ (o.trailadjust p).created.price ∧
      ((o.trailadjust p).created.price = o.created.price ∨
        (o.trailadjust p).created.price = p - o.trailamt p) ∧
      (∀ ps : List ℚ,
        o.created.price ≤ (List.foldl Order.trailadjust o ps).created.price)) ∧
    (o.trailamount ≠ 0 → o.trailamt p = o.trailamount) ∧
    (o.trailamount = 0 → o.trailpercent ≠ 0 → o.trailamt p = p * o.trailpercent) := by
  refine ⟨?_, ?_, ?_, ?_⟩
  · intro h
    refine ⟨trailadjust_buy_le o p h, ?_,
      fun ps => trailadjust_foldl_buy_le o ps h⟩
    simp only [Order.trailadjust, h, if_true]
    split_ifs
    · right; rfl
    · right; rfl
    · left; rfl
  · intro h
    refine ⟨trailadjust_sell_ge o p h, ?_,
      fun ps => trailadjust_foldl_sell_ge o ps h⟩
    simp only [Order.trailadjust, h, if_true]
    split_ifs <;> first | (right; rfl) | (left; rfl) | simp_all
  · intro h
    simp [Order.trailamt, h]
  · intro h h2
    simp [Order.trailamt, h, h2]

/-- Witness for C7 at a concrete buy StopTrail order. -/
theorem C7_trailadjust_favorable_witness :
    ((mkPendingOrder OrdType.Buy ExecType.StopTrail 5).ordtype = OrdType.Buy →
      ((mkPendingOrder OrdType.Buy ExecType.StopTrail 5).trailadjust
          4).created.price ≤
        (mkPendingOrder OrdType.Buy ExecType.StopTrail 5).created.price ∧
      (((mkPendingOrder OrdType.Buy ExecType.StopTrail 5).trailadjust
            4).created.price =
          (mkPendingOrder OrdType.Buy ExecType.StopTrail 5).created.price ∨
        ((mkPendingOrder OrdType.Buy ExecType.StopTrail 5).trailadjust
            4).created.price =
          4 + (mkPendingOrder OrdType.Buy ExecType.StopTrail 5).trailamt 4) ∧
      (∀ ps : List ℚ,
        (List.foldl Order.trailadjust
            (mkPendingOrder OrdType.Buy ExecType.StopTrail 5) ps).created.price ≤
          (mkPendingOrder OrdType.Buy ExecType.StopTrail 5).created.price)) :=
  (C7_trailadjust_favorable (mkPendingOrder OrdType.Buy ExecType.StopTrail 5)
    4).1

/-! ## C2 machinery: fill accounting invariants -/

theorem sumSizes_append (l : List OrderExecutionBit) (b : OrderExecutionBit) :
    sumSizes (l ++ [b]) = sumSizes l + b.size := by
  simp [sumSizes]

theorem SizeBetween.zero (c : ℚ) : SizeBetween 0 c :=
  ⟨fun hc => ⟨le_refl 0, hc⟩, fun hc => ⟨hc, le_refl 0⟩⟩

theorem SizeBetween.abs_le {e c : ℚ} (h : SizeBetween e c) : |e| ≤ |c| := by
  rcases le_total 0 c with hc | hc
  · obtain ⟨h0, hec⟩ := h.1 hc
    rw [abs_of_nonneg h0, abs_of_nonneg hc]
    exact hec
  · obtain ⟨hce, h0⟩ := h.2 hc
    rw [abs_of_nonpos h0, abs_of_nonpos hc]
    linarith

theorem SizeBetween.step {e c s : ℚ} (hec : SizeBetween e c)
    (hs : SizeBetween s (c - e)) : SizeBetween (e + s) c := by
  constructor <;> intro hc
  · obtain ⟨he0, hec'⟩ := hec.1 hc
    obtain ⟨hs0, hsr⟩ := hs.1 (by linarith)
    exact ⟨by linarith, by linarith⟩
  · obtain ⟨hce, he0⟩ := hec.2 hc
    obtain ⟨hsr, hs0⟩ := hs.2 (by linarith)
    exact ⟨by linarith, by linarith⟩

theorem execute_nonzero (o : Order) (f : Fill) (hf : f.size ≠ 0) :
    (o.execute f).created = o.created ∧
    (o.execute f).executed.exbits =
      o.executed.exbits ++ [OrderExecutionBit.ofFill f] ∧
    (o.execute f).executed.size = o.executed.size + f.size ∧
    (o.execute f).executed.remsize = o.executed.remsize - f.size ∧
    (o.execute f).status =
      (if o.executed.remsize - f.size ≠ 0 then OrdStatus.PartFilled
       else OrdStatus.Completed) := by
  unfold Order.execute
  rw [if_neg hf]
  exact ⟨rfl, rfl, rfl, rfl, rfl⟩

theorem applyFills_invariant (fills : List Fill) :
    ∀ o : Order,
      sumSizes o.executed.exbits = o.executed.size →
      o.executed.size + o.executed.remsize = o.created.size →
      SizeBetween o.executed.size o.created.size →
      validFills o.executed.remsize fills →
      (o.applyFills fills).created = o.created ∧
      sumSizes (o.applyFills fills).executed.exbits =
        (o.applyFills fills).executed.size ∧
      (o.applyFills fills).executed.size +
        (o.applyFills fills).executed.remsize = (o.applyFills fills).created.size ∧
      SizeBetween (o.applyFills fills).executed.size
        (o.applyFills fills).created.size ∧
      (fills ≠ [] →
        (((o.applyFills fills).status = OrdStatus.PartFilled ↔
          (o.applyFills fills).executed.remsize ≠ 0) ∧
         ((o.applyFills fills).status = OrdStatus.Completed ↔
          (o.applyFills fills).executed.remsize = 0))) := by
  induction fills with
  | nil =>
    intro o hsum hacct hbet _
    refine ⟨rfl, hsum, hacct, hbet, ?_⟩
    intro hne
    exact absurd rfl hne
  | cons f fs ih =>
    intro o hsum hacct hbet hvalid
    obtain ⟨hf, hfbet, hvrest⟩ := hvalid
    obtain ⟨hcr, hbits, hsz, hrem, hst⟩ := execute_nonzero o f hf
    have happ : o.applyFills (f :: fs) = (o.execute f).applyFills fs := rfl
    have hsum1 : sumSizes (o.execute f).executed.exbits =
        (o.execute f).executed.size := by
      rw [hbits, hsz, sumSizes_append, hsum]
      rfl
    have hacct1 : (o.execute f).executed.size +
        (o.execute f).executed.remsize = (o.execute f).created.size := by
      rw [hsz, hrem, hcr]
      linarith
    have hbet1 : SizeBetween (o.execute f).executed.size
        (o.execute f).created.size := by
      rw [hsz, hcr]
      refine hbet.step ?_
      have hr : o.created.size - o.executed.size = o.executed.remsize := by
        linarith
      rw [hr]
      exact hfbet
    have hvalid1 : validFills (o.execute f).executed.remsize fs := by
      rw [hrem]
      exact hvrest
    obtain ⟨ih1, ih2, ih3, ih4, ih5⟩ :=
      ih (o.execute f) hsum1 hacct1 hbet1 hvalid1
    rw [happ]
    refine ⟨by rw [ih1, hcr], ih2, ih3, ih4, ?_⟩
    intro _
    cases fs with
    | nil =>
      have hid : (o.execute f).applyFills [] = o.execute f := rfl
      rw [hid, hst, hrem]
      by_cases hz : o.executed.remsize - f.size ≠ 0
      · rw [if_pos hz]
        constructor
        · constructor
          · intro _; exact hz
          · intro _; rfl
        · constructor
          · intro hco; exact OrdStatus.noConfusion hco
          · intro hco; exact absurd hco hz
      · rw [if_neg hz]
        push_neg at hz
        constructor
        · constructor
          · intro hco; exact OrdStatus.noConfusion hco
          · intro hcon; exact absurd hz hcon
        · constructor
          · intro _; exact hz
          · intro _; rfl
    | cons g gs =>
      exact ih5 (by simp)

/-- Claim C2: for an order with a fresh executed record and any valid fill
sequence recorded through execute, the accumulated executed size (sum of the
execution bits) equals the created size minus the remaining size, the
absolute executed size never exceeds the absolute created size, and after
each fill (here: after any non-empty valid fill sequence, every prefix of
which is itself a valid fill sequence) the status is Partial exactly when
the remaining size is non-zero and Completed exactly when it is zero. -/
theorem C2_execute_fill_accounting (o : Order) (fills : List Fill)
    (hexbits : o.executed.exbits = [])
    (hexsize : o.executed.size = 0)
    (hremsize : o.executed.remsize = o.created.size)
    (hvalid : validFills o.executed.remsize fills) :
    sumSizes (o.applyFills fills).executed.exbits =
      o.created.size - (o.applyFills fills).executed.remsize ∧
    |(o.applyFills fills).executed.size| ≤ |o.created.size| ∧
    (fills ≠ [] →
      (((o.applyFills fills).status = OrdStatus.PartFilled ↔
        (o.applyFills fills).executed.remsize ≠ 0) ∧
       ((o.applyFills fills).status = OrdStatus.Completed ↔
        (o.applyFills fills).executed.remsize = 0))) := by
  have hsum : sumSizes o.executed.exbits = o.executed.size := by
    rw [hexbits, hexsize]
    rfl
  have hacct : o.executed.size + o.executed.remsize = o.created.size := by
    rw [hexsize, hremsize]
    linarith
  have hbet : SizeBetween o.executed.size o.created.size := by
    rw [hexsize]
    exact SizeBetween.zero _
  obtain ⟨h1, h2, h3, h4, h5⟩ :=
    applyFills_invariant fills o hsum hacct hbet hvalid
  refine ⟨?_, ?_, h5⟩
  · rw [h2]
    rw [h1] at h3
    linarith
  · rw [← h1]
    exact h4.abs_le

/-- Witness for C2: a buy order of size 10 filled by 4 then 6. -/
theorem C2_execute_fill_accounting_witness :
    ((mkPendingOrder OrdType.Buy ExecType.Market 10).executed.exbits = [] ∧
     (mkPendingOrder OrdType.Buy ExecType.Market 10).executed.size = 0 ∧
     (mkPendingOrder OrdType.Buy ExecType.Market 10).executed.remsize =
       (mkPendingOrder OrdType.Buy ExecType.Market 10).created.size ∧
     validFills (mkPendingOrder OrdType.Buy ExecType.Market 10).executed.remsize
       [{ size := 4 }, { size := 6 }]) ∧
    sumSizes ((mkPendingOrder OrdType.Buy ExecType.Market 10).applyFills
        [{ size := 4 }, { size := 6 }]).executed.exbits =
      (mkPendingOrder OrdType.Buy ExecType.Market 10).created.size -
        ((mkPendingOrder OrdType.Buy ExecType.Market 10).applyFills
          [{ size := 4 }, { size := 6 }]).executed.remsize := by
  have hv : validFills
      (mkPendingOrder OrdType.Buy ExecType.Market 10).executed.remsize
      [{ size := 4 }, { size := 6 }] := by
    refine ⟨by norm_num, ⟨?_, ?_⟩, by norm_num, ⟨?_, ?_⟩, trivial⟩ <;>
      intro hc <;> constructor <;> norm_num [mkPendingOrder] at hc ⊢
  refine ⟨⟨rfl, rfl, rfl, hv⟩, ?_⟩
  exact (C2_execute_fill_accounting (mkPendingOrder OrdType.Buy ExecType.Market 10)
    [{ size := 4 }, { size := 6 }] rfl rfl rfl hv).1

/-! ## C9 machinery: pending-notification windows across clones -/

theorem runOps_spec (ops : List ONotifyOp) :
    ∀ od : OrderData, od.p2 ≤ od.exbits.length →
      (od.runOps ops).1.exbits = od.exbits ++ opsBits ops ∧
      od.p2 ≤ (od.runOps ops).1.p2 ∧
      (od.runOps ops).1.p2 ≤ (od.runOps ops).1.exbits.length ∧
      (od.runOps ops).2.flatten =
        (((od.runOps ops).1.exbits).take (od.runOps ops).1.p2).drop od.p2 ∧
      (ops.getLast? = some ONotifyOp.clone →
        (od.runOps ops).1.p2 = (od.runOps ops).1.exbits.length) := by
  induction ops with
  | nil =>
    intro od h
    refine ⟨by simp [OrderData.runOps, opsBits], le_refl _, h, ?_, ?_⟩
    · have hlen : (od.exbits.take od.p2).length ≤ od.p2 := by
        rw [List.length_take]
        exact min_le_left _ _
      rw [show (od.runOps []).2 = [] from rfl]
      rw [show (od.runOps []).1 = od from rfl]
      rw [List.drop_eq_nil_of_le hlen]
      rfl
    · intro hl
      simp at hl
  | cons op ops ih =>
    intro od h
    cases op with
    | fill b =>
      have hrun : od.runOps (ONotifyOp.fill b :: ops) =
          (od.addbit b).runOps ops := rfl
      have h1 : (od.addbit b).p2 ≤ (od.addbit b).exbits.length := by
        have he : (od.addbit b).exbits = od.exbits ++ [b] := rfl
        have hp : (od.addbit b).p2 = od.p2 := rfl
        rw [he, hp, List.length_append]
        exact le_trans h (Nat.le_add_right _ _)
      obtain ⟨ih1, ih2, ih3, ih4, ih5⟩ := ih (od.addbit b) h1
      rw [hrun]
      refine ⟨?_, ?_, ih3, ?_, ?_⟩
      · rw [ih1]
        have he : (od.addbit b).exbits = od.exbits ++ [b] := rfl
        rw [he, List.append_assoc]
        rfl
      · exact le_trans (le_of_eq rfl) ih2
      · rw [ih4]
        rfl
      · intro hl
        cases ops with
        | nil => simp at hl
        | cons op2 rest =>
          rw [List.getLast?_cons_cons] at hl
          exact ih5 hl
    | clone =>
      have hm2 : od.markpending.p2 = od.exbits.length := rfl
      have hme : od.markpending.exbits = od.exbits := rfl
      have h1 : od.markpending.p2 ≤ od.markpending.exbits.length := by
        rw [hm2, hme]
      obtain ⟨ih1, ih2, ih3, ih4, ih5⟩ := ih od.markpending h1
      have hrun1 : (od.runOps (ONotifyOp.clone :: ops)).1 =
          (od.markpending.runOps ops).1 := rfl
      have hrun2 : (od.runOps (ONotifyOp.clone :: ops)).2 =
          od.markpending.iterpending :: (od.markpending.runOps ops).2 := rfl
      have hpend : od.markpending.iterpending = od.exbits.drop od.p2 := by
        unfold OrderData.iterpending
        rw [hm2, hme, List.take_length]
        rfl
      rw [hrun1, hrun2]
      have hfin : (od.markpending.runOps ops).1.exbits =
          od.exbits ++ opsBits ops := by
        rw [ih1, hme]
      refine ⟨?_, ?_, ih3, ?_, ?_⟩
      · rw [hfin]
        rfl
      · calc od.p2 ≤ od.exbits.length := h
          _ = od.markpending.p2 := hm2.symm
          _ ≤ _ := ih2
      · rw [List.flatten_cons, hpend, ih4, hm2, hfin]
        have hk : od.exbits.length ≤ (od.markpending.runOps ops).1.p2 := by
          rw [← hm2]
          exact ih2
        rw [List.take_append_eq_append_take,
          List.take_of_length_le (le_trans (le_refl _) hk)]
        rw [List.drop_append_eq_append_drop,
          List.drop_eq_nil_of_le (le_refl od.exbits.length),
          Nat.sub_self, List.drop_zero, List.nil_append]
        rw [List.drop_append_eq_append_drop,
          Nat.sub_eq_zero_of_le h, List.drop_zero]
      · intro hl
        cases ops with
        | nil =>
          have : (od.markpending.runOps []).1 = od.markpending := rfl
          rw [this, hm2, hme]
        | cons op2 rest =>
          rw [List.getLast?_cons_cons] at hl
          exact ih5 hl

/-- Claim C9: clone marks the pending-notification window so that the pending
bits of each clone are exactly those recorded since the previous clone; over
any fill/clone sequence ending in a clone (every recorded bit gets notified),
the concatenation of the pending lists of the successive clones is exactly
the list of recorded execution bits: each bit lands in exactly one clone,
exactly once, in order. -/
theorem C9_clone_pending_partition (ops : List ONotifyOp)
    (h : ops.getLast? = some ONotifyOp.clone) :
    ((({} : OrderData).runOps ops).2).flatten = opsBits ops := by
  obtain ⟨h1, _, _, h4, h5⟩ :=
    runOps_spec ops ({} : OrderData) (by simp)
  rw [h4, h5 h, List.take_length, h1]
  rfl

/-- Witness for C9: two fills, a clone, one fill, a final clone. -/
theorem C9_clone_pending_partition_witness :
    ([ONotifyOp.fill { size := 1 }, ONotifyOp.fill { size := 2 },
      ONotifyOp.clone, ONotifyOp.fill { size := 3 },
      ONotifyOp.clone] : List ONotifyOp).getLast? = some ONotifyOp.clone ∧
    ((({} : OrderData).runOps
        [ONotifyOp.fill { size := 1 }, ONotifyOp.fill { size := 2 },
         ONotifyOp.clone, ONotifyOp.fill { size := 3 },
         ONotifyOp.clone]).2).flatten =
      opsBits [ONotifyOp.fill { size := 1 }, ONotifyOp.fill { size := 2 },
        ONotifyOp.clone, ONotifyOp.fill { size := 3 }, ONotifyOp.clone] :=
  ⟨rfl, C9_clone_pending_partition _ rfl⟩

/-! ## C1 machinery: timestamp monotonicity of the event loop -/

theorem mem_of_head? {α : Type} {l : List α} {a : α} (h : l.head? = some a) :
    a ∈ l := by
  cases l with
  | nil => cases h
  | cons x xs =>
    injection h with h1
    rw [← h1]
    exact List.mem_cons_self _ _

theorem listMin_eq_none {l : List ℚ} : listMin l = none ↔ l = [] := by
  cases l with
  | nil => simp [listMin]
  | cons x xs =>
    rw [listMin]
    cases h : listMin xs <;> simp

theorem listMin_mem {l : List ℚ} {m : ℚ} (h : listMin l = some m) : m ∈ l := by
  induction l generalizing m with
  | nil => cases h
  | cons x xs ih =>
    rw [listMin] at h
    cases hx : listMin xs with
    | none =>
      rw [hx] at h
      injection h with h1
      rw [← h1]
      exact List.mem_cons_self _ _
    | some m2 =>
      rw [hx] at h
      injection h with h1
      rw [← h1]
      rcases le_total x m2 with hle | hle
      · rw [min_eq_left hle]
        exact List.mem_cons_self _ _
      · rw [min_eq_right hle]
        exact List.mem_cons_of_mem _ (ih hx)

theorem listMin_le {l : List ℚ} {m : ℚ} (h : listMin l = some m) :
    ∀ x ∈ l, m ≤ x := by
  induction l generalizing m with
  | nil => intro x hx; cases hx
  | cons y ys ih =>
    rw [listMin] at h
    cases hy : listMin ys with
    | none =>
      rw [hy] at h
      injection h with h1
      intro x hx
      rcases List.mem_cons.mp hx with hx | hx
      · rw [← h1, hx]
      · rw [listMin_eq_none.mp hy] at hx
        cases hx
    | some m2 =>
      rw [hy] at h
      injection h with h1
      intro x hx
      rcases List.mem_cons.mp hx with hx | hx
      · rw [← h1, hx]
        exact min_le_left _ _
      · rw [← h1]
        exact le_trans (min_le_right _ _) (ih hy x hx)

theorem listMax_eq_none {l : List ℚ} : listMax l = none ↔ l = [] := by
  cases l with
  | nil => simp [listMax]
  | cons x xs =>
    rw [listMax]
    cases h : listMax xs <;> simp

theorem listMax_mem {l : List ℚ} {m : ℚ} (h : listMax l = some m) : m ∈ l := by
  induction l generalizing m with
  | nil => cases h
  | cons x xs ih =>
    rw [listMax] at h
    cases hx : listMax xs with
    | none =>
      rw [hx] at h
      injection h with h1
      rw [← h1]
      exact List.mem_cons_self _ _
    | some m2 =>
      rw [hx] at h
      injection h with h1
      rw [← h1]
      rcases le_total x m2 with hle | hle
      · rw [max_eq_right hle]
        exact List.mem_cons_of_mem _ (ih hx)
      · rw [max_eq_left hle]
        exact List.mem_cons_self _ _

theorem listMax_eq {l : List ℚ} {m : ℚ} (hm : m ∈ l) (hall : ∀ x ∈ l, x ≤ m) :
    listMax l = some m := by
  induction l with
  | nil => cases hm
  | cons x xs ih =>
    rw [listMax]
    cases hx : listMax xs with
    | none =>
      have hxs : xs = [] := listMax_eq_none.mp hx
      subst hxs
      rcases List.mem_cons.mp hm with hme | hme
      · rw [hme]
      · cases hme
    | some m2 =>
      have hm2 : m2 ∈ xs := listMax_mem hx
      show some (max x m2) = some m
      rcases List.mem_cons.mp hm with hme | hme
      · subst hme
        rw [max_eq_left (hall m2 (List.mem_cons_of_mem _ hm2))]
      · have hthis : listMax xs = some m :=
          ih hme (fun y hy => hall y (List.mem_cons_of_mem _ hy))
        rw [hx] at hthis
        injection hthis with h1
        rw [h1, max_eq_right (hall x (List.mem_cons_self _ _))]

theorem fnext_nil {f : Feed} (h : f.future = []) : fnext f = (f, false) := by
  unfold fnext
  rw [h]

theorem fnext_cons {f : Feed} {t : ℚ} {rest : List ℚ}
    (h : f.future = t :: rest) : fnext f = (⟨t :: f.past, rest⟩, true) := by
  unfold fnext
  rw [h]

theorem fnext_true {f g : Feed} (h : fnext f = (g, true)) :
    ∃ t rest, f.future = t :: rest ∧ g = ⟨t :: f.past, rest⟩ := by
  cases hfu : f.future with
  | nil =>
    rw [fnext_nil hfu] at h
    injection h with h1 h2
    exact Bool.noConfusion h2
  | cons t rest =>
    rw [fnext_cons hfu] at h
    injection h with h1 h2
    exact ⟨t, rest, rfl, h1.symm⟩

theorem feedPost_inv {d : WithBot ℚ} {dt0 : ℚ} (f : Feed) (hf : FeedInv d f)
    (hd : d ≤ (dt0 : WithBot ℚ))
    (hmin : ∀ t rest, f.future = t :: rest → dt0 ≤ t) :
    FeedInv (dt0 : WithBot ℚ) (feedPost dt0 (fnext f)) := by
  obtain ⟨hp, hfut, hcross, hhead, hfhead⟩ := hf
  cases hfu : f.future with
  | nil =>
    have hkeep : feedPost dt0 (fnext f) = f := by
      rw [fnext_nil hfu]
      rfl
    rw [hkeep]
    refine ⟨hp, hfut, hcross, ?_, ?_⟩
    · intro t ht
      exact le_trans (hhead t ht) hd
    · intro t ht
      rw [hfu] at ht
      cases ht
  | cons t rest =>
    have hdt : dt0 ≤ t := hmin t rest hfu
    rw [hfu] at hfut
    have hform : feedPost dt0 (fnext f) =
        if dt0 < t then Feed.rewind ⟨t :: f.past, rest⟩
        else (⟨t :: f.past, rest⟩ : Feed) := by
      rw [fnext_cons hfu]
      rfl
    by_cases hlt : dt0 < t
    · rw [hform, if_pos hlt]
      show FeedInv (dt0 : WithBot ℚ) ⟨f.past, t :: rest⟩
      refine ⟨hp, hfut, ?_, ?_, ?_⟩
      · intro x hx y hy
        exact hcross x hx y (by rw [hfu]; exact hy)
      · intro s hs
        exact le_trans (hhead s hs) hd
      · intro s hs
        injection hs with h1
        rw [← h1]
        exact WithBot.coe_le_coe.mpr (le_of_lt hlt)
    · have hteq : t = dt0 := le_antisymm (not_lt.mp hlt) hdt
      rw [hform, if_neg hlt]
      refine ⟨?_, ?_, ?_, ?_, ?_⟩
      · rw [List.sorted_cons]
        refine ⟨?_, hp⟩
        intro b hb
        exact hcross b hb t (by rw [hfu]; exact List.mem_cons_self _ _)
      · exact (List.sorted_cons.mp hfut).2
      · intro x hx y hy
        rcases List.mem_cons.mp hx with hx | hx
        · rw [hx]
          exact (List.sorted_cons.mp hfut).1 y hy
        · exact hcross x hx y (by rw [hfu]; exact List.mem_cons_of_mem _ hy)
      · intro s hs
        injection hs with h1
        rw [← h1, hteq]
      · intro s hs
        have hsmem : s ∈ rest := mem_of_head? hs
        have hts : t ≤ s := (List.sorted_cons.mp hfut).1 s hsmem
        exact WithBot.coe_le_coe.mpr (by rw [← hteq]; exact hts)

theorem runnextStep_inv {d : WithBot ℚ} {fs fs' : List Feed} {dt0 : ℚ}
    (hinv : ∀ f ∈ fs, FeedInv d f)
    (hstep : runnextStep fs = some (fs', dt0)) :
    d ≤ (dt0 : WithBot ℚ) ∧ (∀ g ∈ fs', FeedInv (dt0 : WithBot ℚ) g) ∧
    stratDT fs' = some dt0 := by
  unfold runnextStep at hstep
  cases hmin : listMin ((fs.map fnext).filterMap
      (fun p => if p.2 then p.1.lastdt else none)) with
  | none =>
    rw [hmin] at hstep
    cases hstep
  | some m =>
    rw [hmin] at hstep
    injection hstep with hpair
    injection hpair with hfs hdt
    subst hfs
    subst hdt
    have hminf : ∀ f ∈ fs, ∀ t rest, f.future = t :: rest → m ≤ t := by
      intro f hf t rest hfu
      apply listMin_le hmin
      apply List.mem_filterMap.mpr
      refine ⟨fnext f, List.mem_map_of_mem _ hf, ?_⟩
      rw [fnext_cons hfu]
      rfl
    have hdm : d ≤ (m : WithBot ℚ) := by
      obtain ⟨p, hpmem, hpm⟩ := List.mem_filterMap.mp (listMin_mem hmin)
      obtain ⟨f, hf, hfp⟩ := List.mem_map.mp hpmem
      by_cases h2 : p.2 = true
      · rw [if_pos h2] at hpm
        cases hfu : f.future with
        | nil =>
          rw [← hfp, fnext_nil hfu] at h2
          exact Bool.noConfusion h2
        | cons t rest =>
          rw [← hfp, fnext_cons hfu] at hpm
          have hsm : some t = some m := hpm
          injection hsm with htm
          obtain ⟨_, _, _, _, h5⟩ := hinv f hf
          have := h5 t (by rw [hfu]; rfl)
          rw [htm] at this
          exact this
      · rw [if_neg h2] at hpm
        cases hpm
    have hinv' : ∀ g ∈ (fs.map fnext).map (feedPost m),
        FeedInv (m : WithBot ℚ) g := by
      intro g hg
      rw [List.map_map] at hg
      obtain ⟨f, hf, hfg⟩ := List.mem_map.mp hg
      rw [← hfg]
      exact feedPost_inv f (hinv f hf) hdm (hminf f hf)
    refine ⟨hdm, hinv', ?_⟩
    unfold stratDT
    apply listMax_eq
    · obtain ⟨p, hpmem, hpm⟩ := List.mem_filterMap.mp (listMin_mem hmin)
      obtain ⟨f, hf, hfp⟩ := List.mem_map.mp hpmem
      by_cases h2 : p.2 = true
      · rw [if_pos h2] at hpm
        cases hfu : f.future with
        | nil =>
          rw [← hfp, fnext_nil hfu] at h2
          exact Bool.noConfusion h2
        | cons t rest =>
          rw [← hfp, fnext_cons hfu] at hpm
          have hsm : some t = some m := hpm
          injection hsm with htm
          apply List.mem_filterMap.mpr
          refine ⟨⟨t :: f.past, rest⟩, ?_, by rw [← htm]; rfl⟩
          rw [List.map_map]
          apply List.mem_map.mpr
          refine ⟨f, hf, ?_⟩
          show feedPost m (fnext f) = _
          have hform : feedPost m (fnext f) =
              if m < t then Feed.rewind ⟨t :: f.past, rest⟩
              else (⟨t :: f.past, rest⟩ : Feed) := by
            rw [fnext_cons hfu]
            rfl
          rw [hform, if_neg (by rw [htm]; exact lt_irrefl m)]
      · rw [if_neg h2] at hpm
        cases hpm
    · intro x hx
      obtain ⟨g, hg, hgx⟩ := List.mem_filterMap.mp hx
      obtain ⟨_, _, _, h4, _⟩ := hinv' g hg
      exact WithBot.coe_le_coe.mp (h4 x hgx)

theorem runnextRun_inv (n : ℕ) :
    ∀ (d : WithBot ℚ) (fs : List Feed), (∀ f ∈ fs, FeedInv d f) →
      (∀ p ∈ runnextRun n fs, p.2 = some p.1 ∧ d ≤ ((p.1 : ℚ) : WithBot ℚ)) ∧
      List.Chain' (· ≤ ·) ((runnextRun n fs).map Prod.fst) := by
  induction n with
  | zero =>
    intro d fs _
    constructor
    · intro p hp
      exact absurd hp (List.not_mem_nil p)
    · exact List.chain'_nil
  | succ n ih =>
    intro d fs h
    cases hstep : runnextStep fs with
    | none =>
      have hrun : runnextRun (n + 1) fs = [] := by
        rw [runnextRun, hstep]
      rw [hrun]
      constructor
      · intro p hp
        exact absurd hp (List.not_mem_nil p)
      · exact List.chain'_nil
    | some pr =>
      obtain ⟨fs', dt0⟩ := pr
      obtain ⟨hd, hinv', hsdt⟩ := runnextStep_inv h hstep
      obtain ⟨ihmem, ihchain⟩ := ih (dt0 : WithBot ℚ) fs' hinv'
      have hrun : runnextRun (n + 1) fs =
          (dt0, stratDT fs') :: runnextRun n fs' := by
        rw [runnextRun, hstep]
      rw [hrun]
      constructor
      · intro p hp
        rcases List.mem_cons.mp hp with hp | hp
        · rw [hp]
          exact ⟨hsdt, hd⟩
        · obtain ⟨h1, h2⟩ := ihmem p hp
          exact ⟨h1, le_trans hd h2⟩
      · rw [List.map_cons, List.chain'_cons']
        refine ⟨?_, ihchain⟩
        intro y hy
        rw [Option.mem_def] at hy
        have hy' : y ∈ (runnextRun n fs').map Prod.fst := mem_of_head? hy
        obtain ⟨q, hq, hqy⟩ := List.mem_map.mp hy'
        obtain ⟨_, h2⟩ := ihmem q hq
        rw [← hqy]
        exact WithBot.coe_le_coe.mp h2

/-- Claim C1: in the default event-mode loop over internally time-ordered
feeds, a feed delivering a timestamp beyond dt0 is rewound and its next call
to next() re-delivers the same bar, and the strategy datetime written by
_clk_update each iteration equals dt0 and never decreases across iterations:
consecutive strategy next invocations see non-decreasing datetimes. -/
theorem C1_runnext_datetime_monotone (n : ℕ) (fs : List Feed)
    (h : ∀ f ∈ fs, f.past = [] ∧ List.Sorted (· ≤ ·) f.future) :
    (∀ p ∈ runnextRun n fs, p.2 = some p.1) ∧
    List.Chain' (· ≤ ·) ((runnextRun n fs).map Prod.fst) ∧
    (∀ f g, fnext f = (g, true) → fnext g.rewind = (g, true)) := by
  have hinv : ∀ f ∈ fs, FeedInv (⊥ : WithBot ℚ) f := by
    intro f hf
    obtain ⟨h1, h2⟩ := h f hf
    refine ⟨by rw [h1]; exact List.sorted_nil, h2, ?_, ?_, ?_⟩
    · intro x hx
      rw [h1] at hx
      cases hx
    · intro t ht
      rw [h1] at ht
      cases ht
    · intro t _
      exact bot_le
  obtain ⟨hmem, hchain⟩ := runnextRun_inv n ⊥ fs hinv
  refine ⟨fun p hp => (hmem p hp).1, hchain, ?_⟩
  intro f g hfg
  obtain ⟨t, rest, hfu, hg⟩ := fnext_true hfg
  rw [hg]
  rfl

/-- Witness for C1: two feeds, one with bars at 1 and 3, the other with bars
at 2 and 3; four loop iterations. -/
theorem C1_runnext_datetime_monotone_witness :
    (∀ f ∈ ([⟨[], [1, 3]⟩, ⟨[], [2, 3]⟩] : List Feed),
      f.past = [] ∧ List.Sorted (· ≤ ·) f.future) ∧
    (∀ p ∈ runnextRun 5 ([⟨[], [1, 3]⟩, ⟨[], [2, 3]⟩] : List Feed),
      p.2 = some p.1) ∧
    List.Chain' (· ≤ ·)
      ((runnextRun 5 ([⟨[], [1, 3]⟩, ⟨[], [2, 3]⟩] : List Feed)).map
        Prod.fst) := by
  have hs : ∀ f ∈ ([⟨[], [1, 3]⟩, ⟨[], [2, 3]⟩] : List Feed),
      f.past = [] ∧ List.Sorted (· ≤ ·) f.future := by
    intro f hf
    rcases List.mem_cons.mp hf with hf | hf
    · rw [hf]
      exact ⟨rfl, by norm_num [List.sorted_cons]⟩
    · rcases List.mem_cons.mp hf with hf | hf
      · rw [hf]
        exact ⟨rfl, by norm_num [List.sorted_cons]⟩
      · cases hf
  obtain ⟨h1, h2, _⟩ := C1_runnext_datetime_monotone 5
    ([⟨[], [1, 3]⟩, ⟨[], [2, 3]⟩] : List Feed) hs
  exact ⟨hs, h1, h2⟩

end Backtrader
